import Mathlib

/-!
# Verification of `sveltekit-lighthouse-runner`

A shallow embedding, in Lean 4, of the route-handling, scheduling and report
collection logic of the `sveltekit-lighthouse-runner` CLI, together with
theorems settling the specification claims about it.

Conventions of the embedding:

* JavaScript strings are Lean `String`s; `route.split("/")` and
  `Array.prototype.join("/")` are modelled by the explicit functions
  `splitSlash` / `joinSlash` on `List Char`, which implement exactly the
  JavaScript semantics (splitting on every occurrence of the separator,
  keeping empty pieces, `"".split("/") = [""]`).
* A JavaScript object used as a string-to-string dictionary
  (`ParamValues`) is modelled as an association list `List (String × String)`
  looked up with `List.lookup`; a JS object has at most one entry per key,
  which the association-list model reflects by always taking the first hit.
* Asynchronous code is modelled by explicit state (`SchedState`) and a step
  relation; states of the relation correspond to the event-loop yield
  points of the single-threaded JS runtime.
* Fallible control flow (`process.exit(1)`) is modelled with `Except`.
-/

namespace SvelteKitLighthouse

/-! ## JavaScript string splitting and joining on `'/'`

`splitSlash` models `s.split("/")` and `joinSlash` models
`parts.join("/")` from `routeUtils.ts` (`applyParamValues`,
`extractUniqueParams`). -/

/-- Model of JavaScript `s.split("/")`: split at every `'/'`, keeping empty
pieces; the empty string yields `[[]]`. -/
def splitSlash : List Char → List (List Char)
  | [] => [[]]
  | c :: rest =>
    match splitSlash rest with
    | [] => [[c]]
    | g :: gs => if c = '/' then [] :: g :: gs else (c :: g) :: gs

/-- Model of JavaScript `parts.join("/")`. -/
def joinSlash : List (List Char) → List Char
  | [] => []
  | [g] => g
  | g :: g' :: gs => g ++ '/' :: joinSlash (g' :: gs)

theorem splitSlash_ne_nil (l : List Char) : splitSlash l ≠ [] := by
  cases l with
  | nil => simp [splitSlash]
  | cons c rest =>
    simp only [splitSlash]
    cases splitSlash rest with
    | nil => simp
    | cons g gs => by_cases h : c = '/' <;> simp [h]

/-- Splitting after joining with a slash concatenates the splits. -/
theorem splitSlash_append_slash (a b : List Char) :
    splitSlash (a ++ '/' :: b) = splitSlash a ++ splitSlash b := by
  induction a with
  | nil =>
    simp only [List.nil_append, splitSlash]
    cases h : splitSlash b with
    | nil => exact absurd h (splitSlash_ne_nil b)
    | cons g gs => simp
  | cons c rest ih =>
    cases h : splitSlash rest with
    | nil => exact absurd h (splitSlash_ne_nil rest)
    | cons g gs =>
      cases hb : splitSlash b with
      | nil => exact absurd hb (splitSlash_ne_nil b)
      | cons gb gbs =>
        by_cases hc : c = '/'
        · subst hc; simp [splitSlash, ih, h, hb]
        · simp [splitSlash, ih, h, hb, hc]

/-- A slash-free string splits into itself alone. -/
theorem splitSlash_of_no_slash (l : List Char) (h : '/' ∉ l) :
    splitSlash l = [l] := by
  induction l with
  | nil => rfl
  | cons c rest ih =>
    simp only [List.mem_cons, not_or] at h
    have hc : ¬c = '/' := fun hc => h.1 hc.symm
    simp [splitSlash, ih h.2, hc]

/-- Joining is a left inverse of splitting, i.e. `parts.join("/")` after
`s.split("/")` gives back `s`. -/
theorem joinSlash_splitSlash (l : List Char) : joinSlash (splitSlash l) = l := by
  induction l with
  | nil => rfl
  | cons c rest ih =>
    simp only [splitSlash]
    cases h : splitSlash rest with
    | nil => exact absurd h (splitSlash_ne_nil rest)
    | cons g gs =>
      rw [h] at ih
      by_cases hc : c = '/'
      · subst hc
        simpa [joinSlash] using ih
      · simp only [if_neg hc]
        cases gs with
        | nil => simpa [joinSlash] using congrArg (c :: ·) ih
        | cons g' gs' => simpa [joinSlash] using congrArg (c :: ·) ih

/-- Splitting after joining slash-free pieces recovers the pieces. -/
theorem splitSlash_joinSlash (gs : List (List Char)) (hne : gs ≠ [])
    (h : ∀ g ∈ gs, '/' ∉ g) : splitSlash (joinSlash gs) = gs := by
  induction gs with
  | nil => exact absurd rfl hne
  | cons g rest ih =>
    cases rest with
    | nil => simpa [joinSlash] using splitSlash_of_no_slash g (h g (by simp))
    | cons g' rest' =>
      have hrest : splitSlash (joinSlash (g' :: rest')) = g' :: rest' :=
        ih (by simp) (fun x hx => h x (List.mem_cons_of_mem g hx))
      calc splitSlash (joinSlash (g :: g' :: rest'))
          = splitSlash (g ++ '/' :: joinSlash (g' :: rest')) := rfl
        _ = splitSlash g ++ splitSlash (joinSlash (g' :: rest')) :=
            splitSlash_append_slash _ _
        _ = [g] ++ (g' :: rest') := by
            rw [splitSlash_of_no_slash g (h g (by simp)), hrest]
        _ = g :: g' :: rest' := rfl

/-! ## `routeUtils.ts`: parameter substitution

Embedding of `applyParamValues` and `extractUniqueParams` from
`src/utils/routeUtils.ts`. `ParamValues` (a JS dictionary object) is an
association list; `paramValues[paramName] || part` returns `part` exactly
when the key is absent (`undefined`) or its value is the empty string
(both falsy in JS). -/

/-- The per-segment substitution performed inside `applyParamValues`:
`if (part.startsWith(":")) { const paramName = part.substring(1);
return paramValues[paramName] || part; } return part;`. -/
def substSeg (pv : List (String × String)) (g : List Char) : List Char :=
  match g with
  | ':' :: tl =>
    match List.lookup (String.mk tl) pv with
    | some v => if v = "" then ':' :: tl else v.toList
    | none => ':' :: tl
  | _ => g

/-- `applyParamValues(route, paramValues)` from `routeUtils.ts`:
split the route on `'/'`, substitute each `:name` segment, join back. -/
def applyParamValues (route : String) (pv : List (String × String)) : String :=
  String.mk (joinSlash ((splitSlash route.toList).map (substSeg pv)))

/-- The parameter names of a single route: the `:`-prefixed
`'/'`-segments, with the colon stripped (the inner loop of
`extractUniqueParams`). -/
def routeParamNames (route : String) : List String :=
  (splitSlash route.toList).filterMap fun g =>
    match g with
    | ':' :: tl => some (String.mk tl)
    | _ => none

/-- First-occurrence deduplication, modelling insertion into a JS `Set`
followed by `Array.from`. -/
def dedupFirst (l : List String) : List String :=
  l.foldl (fun acc x => if x ∈ acc then acc else acc ++ [x]) []

/-- `extractUniqueParams(routes)` from `routeUtils.ts`. -/
def extractUniqueParams (routes : List String) : List String :=
  dedupFirst (routes.flatMap routeParamNames)

/-! ### Spec-side description of substitution (claim C3, amended)

`substSegSpec` follows the specification's wording: a segment beginning
with `:` whose name has a non-empty value in the mapping becomes that
value; otherwise the segment passes through unchanged. It is structured
through `Option` combinators rather than the source's nested branches, so
that agreement with `substSeg` is a genuine (if small) theorem. -/

/-- Spec-modelled per-segment substitution: a `:name` segment is replaced
by the mapping's value for `name` when that value exists and is
non-empty; every other segment (including `:name` with an absent or empty
value) passes through unchanged. -/
def substSegSpec (pv : List (String × String)) (g : List Char) : List Char :=
  if g.head? = some ':' then
    (((List.lookup (String.mk g.tail) pv).filter (· ≠ "")).map
      String.toList).getD g
  else g

theorem substSeg_eq_spec (pv : List (String × String)) (g : List Char) :
    substSeg pv g = substSegSpec pv g := by
  match g with
  | [] => rfl
  | c :: tl =>
    by_cases hc : c = ':'
    · subst hc
      simp only [substSeg, substSegSpec, List.head?_cons, List.tail_cons, if_pos rfl]
      cases h : List.lookup (String.mk tl) pv with
      | none => simp [Option.filter]
      | some v =>
        by_cases hv : v = "" <;> simp [Option.filter, hv]
    · have : substSeg pv (c :: tl) = c :: tl := by
        unfold substSeg
        split
        · next tl' heq =>
          exact absurd (List.head_eq_of_cons_eq heq) hc
        · rfl
      rw [this]
      simp [substSegSpec, hc]

/-- Segments produced by `splitSlash` never contain `'/'`. -/
theorem no_slash_of_mem_splitSlash (l : List Char) :
    ∀ g ∈ splitSlash l, '/' ∉ g := by
  induction l with
  | nil =>
    intro g hg
    simp only [splitSlash, List.mem_singleton] at hg
    simp [hg]
  | cons c rest ih =>
    intro g hg
    cases h : splitSlash rest with
    | nil => exact absurd h (splitSlash_ne_nil rest)
    | cons g0 gs =>
      simp only [splitSlash, h] at hg
      by_cases hc : c = '/'
      · rw [if_pos hc] at hg
        rcases List.mem_cons.mp hg with rfl | hg'
        · simp
        · exact ih g (h ▸ hg')
      · rw [if_neg hc] at hg
        rcases List.mem_cons.mp hg with rfl | hg'
        · intro hmem
          rcases List.mem_cons.mp hmem with h' | h'
          · exact hc h'.symm
          · exact ih g0 (h ▸ List.mem_cons_self _ _) h'
        · exact ih g (h ▸ List.mem_cons_of_mem _ hg')

/-- A segment that does not begin with `':'` passes through the
substitution unchanged. -/
theorem substSeg_of_head_ne (pv : List (String × String)) (g : List Char)
    (h : g.head? ≠ some ':') : substSeg pv g = g := by
  match g with
  | [] => rfl
  | c :: tl =>
    have hc : ¬c = ':' := fun hc => h (by simp [hc])
    unfold substSeg
    split
    · next tl' heq => exact absurd (List.head_eq_of_cons_eq heq) hc
    · rfl

/-- A `:`-segment of a route contributes its name to `routeParamNames`. -/
theorem mem_routeParamNames (route : String) (tl : List Char)
    (h : (':' :: tl) ∈ splitSlash route.toList) :
    String.mk tl ∈ routeParamNames route :=
  List.mem_filterMap.mpr ⟨':' :: tl, h, rfl⟩

/-- C3 (counterexample): the claim says a `:name` segment is replaced by
`values[name]` *whenever `name` is present as a key in the mapping*. With
the mapping `{id: ""}` the key `id` is present, so the claim predicts
`applyParamValues("/:id", {id: ""}) = "/"`; but the source computes
`paramValues[paramName] || part`, and the empty string is falsy in
JavaScript, so the literal `":id"` is kept and the result is `"/:id" ≠ "/"`. -/
theorem applyParamValues_empty_value_counterexample :
    applyParamValues "/:id" [("id", "")] = "/:id" ∧ ("/:id" : String) ≠ "/" := by
  constructor
  · decide
  · decide

/-- C3 (amended): `applyParamValues` substitutes each `'/'`-segment
independently: a segment beginning with `:` is replaced by `values[name]`
whenever `name` maps to a *non-empty* value, and is left as the literal
`:name` when `name` is absent from the mapping or maps to the empty
string; every segment not beginning with `:` passes through unchanged.
The function is pure and total (a total Lean function). -/
theorem applyParamValues_segmentwise_spec (route : String)
    (pv : List (String × String)) :
    applyParamValues route pv =
      String.mk (joinSlash ((splitSlash route.toList).map (substSegSpec pv))) ∧
    (∀ tl v, List.lookup (String.mk tl) pv = some v → v ≠ "" →
      substSegSpec pv (':' :: tl) = v.toList) ∧
    (∀ tl, List.lookup (String.mk tl) pv = none →
      substSegSpec pv (':' :: tl) = ':' :: tl) ∧
    (∀ tl, List.lookup (String.mk tl) pv = some "" →
      substSegSpec pv (':' :: tl) = ':' :: tl) ∧
    (∀ g, g.head? ≠ some ':' → substSegSpec pv g = g) := by
  refine ⟨?_, ?_, ?_, ?_, ?_⟩
  · unfold applyParamValues
    congr 1
    exact congrArg joinSlash (List.map_congr_left
      (fun g _ => substSeg_eq_spec pv g))
  · intro tl v hv hne
    simp [substSegSpec, hv, Option.filter, hne]
  · intro tl hv
    simp [substSegSpec, hv, Option.filter]
  · intro tl hv
    simp [substSegSpec, hv, Option.filter]
  · intro g hg
    simp [substSegSpec, hg]

/-- C3 (witness): the amended segment behaviour at a concrete input:
`/:id/x` with mapping `{id: "42"}` substitutes the `:id` segment and
passes `x` through. -/
theorem applyParamValues_segmentwise_spec_witness :
    applyParamValues "/:id/x" [("id", "42")] =
      String.mk (joinSlash ((splitSlash "/:id/x".toList).map
        (substSegSpec [("id", "42")]))) ∧
    substSegSpec [("id", "42")] (':' :: "id".toList) = "42".toList := by
  constructor
  · exact (applyParamValues_segmentwise_spec "/:id/x" [("id", "42")]).1
  · exact (applyParamValues_segmentwise_spec "/:id/x" [("id", "42")]).2.1
      "id".toList "42" (by decide) (by decide)

/-- C4 (counterexample): with route `/:a` and the complete mapping
`{a: ":b", b: "c"}` (the route's only parameter `a` has a value), one
application yields `/:b`, which still has a `:`-prefixed segment, and a
second application substitutes again, yielding `/c ≠ /:b`; so neither the
zero-remaining-placeholders claim nor idempotence holds as stated. -/
theorem applyParamValues_roundtrip_counterexample :
    routeParamNames "/:a" = ["a"] ∧
    List.lookup "a" [("a", ":b"), ("b", "c")] = some ":b" ∧
    applyParamValues "/:a" [("a", ":b"), ("b", "c")] = "/:b" ∧
    splitSlash ("/:b" : String).toList = [[], [':', 'b']] ∧
    applyParamValues (applyParamValues "/:a" [("a", ":b"), ("b", "c")])
      [("a", ":b"), ("b", "c")] = "/c" ∧
    ("/c" : String) ≠ "/:b" := by
  refine ⟨by decide, by decide, by decide, by decide, by decide, by decide⟩

/-- C4 (amended): if the mapping provides, for every parameter name of the
route, a value that is non-empty, slash-free and does not itself begin
with `:`, then one application of `applyParamValues` leaves no
`:`-prefixed segment, and a second application of the same mapping is a
no-op. -/
theorem applyParamValues_roundtrip (route : String)
    (pv : List (String × String))
    (h : ∀ name ∈ routeParamNames route, ∃ v,
      List.lookup name pv = some v ∧ v ≠ "" ∧
      v.toList.head? ≠ some ':' ∧ '/' ∉ v.toList) :
    (∀ g ∈ splitSlash (applyParamValues route pv).toList,
      g.head? ≠ some ':') ∧
    applyParamValues (applyParamValues route pv) pv =
      applyParamValues route pv := by
  set parts := splitSlash route.toList with hparts
  have hsub : ∀ g ∈ parts, (substSeg pv g).head? ≠ some ':' ∧
      '/' ∉ substSeg pv g := by
    intro g hg
    match g with
    | ':' :: tl =>
      obtain ⟨v, hv, hvne, hvhead, hvslash⟩ :=
        h (String.mk tl) (mem_routeParamNames route tl hg)
      have : substSeg pv (':' :: tl) = v.toList := by
        simp [substSeg, hv, hvne]
      rw [this]
      exact ⟨hvhead, hvslash⟩
    | [] => exact ⟨by simp [substSeg], by simp [substSeg]⟩
    | c :: tl =>
      by_cases hc : c = ':'
      · subst hc
        obtain ⟨v, hv, hvne, hvhead, hvslash⟩ :=
          h (String.mk tl) (mem_routeParamNames route tl hg)
        have : substSeg pv (':' :: tl) = v.toList := by
          simp [substSeg, hv, hvne]
        rw [this]
        exact ⟨hvhead, hvslash⟩
      · have hid : substSeg pv (c :: tl) = c :: tl :=
          substSeg_of_head_ne pv (c :: tl) (by simp [hc])
        rw [hid]
        refine ⟨by simp [hc], ?_⟩
        exact no_slash_of_mem_splitSlash route.toList (c :: tl) hg
  have hmapped : splitSlash (applyParamValues route pv).toList =
      parts.map (substSeg pv) := by
    show splitSlash (String.mk (joinSlash (parts.map (substSeg pv)))).toList = _
    have : (String.mk (joinSlash (parts.map (substSeg pv)))).toList =
        joinSlash (parts.map (substSeg pv)) := rfl
    rw [this]
    refine splitSlash_joinSlash _ ?_ ?_
    · intro hnil
      exact splitSlash_ne_nil route.toList (by
        simpa [hparts] using (List.map_eq_nil_iff.mp hnil))
    · intro g hg
      obtain ⟨g0, hg0, rfl⟩ := List.mem_map.mp hg
      exact (hsub g0 hg0).2
  constructor
  · intro g hg
    rw [hmapped] at hg
    obtain ⟨g0, hg0, rfl⟩ := List.mem_map.mp hg
    exact (hsub g0 hg0).1
  · show String.mk (joinSlash ((splitSlash
        (applyParamValues route pv).toList).map (substSeg pv))) = _
    rw [hmapped]
    have : (parts.map (substSeg pv)).map (substSeg pv) =
        parts.map (substSeg pv) := by
      refine List.map_congr_left ?_ |>.trans (List.map_id _)
      intro g hg
      obtain ⟨g0, hg0, rfl⟩ := List.mem_map.mp hg
      exact substSeg_of_head_ne pv _ (hsub g0 hg0).1
    rw [this]
    rfl

/-- C4 (witness): the amended round-trip at a concrete input: route
`/:a/b` with mapping `{a: "x"}`. -/
theorem applyParamValues_roundtrip_witness :
    (∀ g ∈ splitSlash (applyParamValues "/:a/b" [("a", "x")]).toList,
      g.head? ≠ some ':') ∧
    applyParamValues (applyParamValues "/:a/b" [("a", "x")]) [("a", "x")] =
      applyParamValues "/:a/b" [("a", "x")] := by
  refine applyParamValues_roundtrip "/:a/b" [("a", "x")] ?_
  intro name hname
  have : name = "a" := by
    have : routeParamNames "/:a/b" = ["a"] := by decide
    rw [this] at hname
    simpa using hname
  subst this
  exact ⟨"x", by decide, by decide, by decide, by decide⟩

/-! ## Report-artifact name sanitization (`executor.ts` / `audit.ts`)

The sanitization pipeline appears twice in the source: in
`runLighthouseAudit` (when the report is written) and in `collectReports`
(when the report is looked up). Each occurrence is embedded separately —
`sanitizeAudit` and `sanitizeCollect` — mirroring the duplicated code. -/

/-- The character class `[a-zA-Z0-9-_]` of the sanitizing regex. -/
def allowedChar (c : Char) : Bool :=
  ('a' ≤ c && c ≤ 'z') || ('A' ≤ c && c ≤ 'Z') || ('0' ≤ c && c ≤ '9') ||
    c = '-' || c = '_'

/-- `replace(/^\//, "")`: remove a single leading slash, if any. -/
def stripLeadingSlash : List Char → List Char
  | '/' :: rest => rest
  | l => l

/-- The sanitization in `collectReports` (`executor.ts`): map the root
route to `"root"`, strip one leading slash, turn remaining slashes into
dashes, and every character outside `[a-zA-Z0-9-_]` into an underscore. -/
def sanitizeCollect (route : String) : String :=
  let routeToUse := if route = "/" then "root" else route
  String.mk (((stripLeadingSlash routeToUse.toList).map
    (fun c => if c = '/' then '-' else c)).map
    (fun c => if allowedChar c then c else '_'))

/-- The sanitization in `runLighthouseAudit` (`audit.ts`), textually
duplicated from the one in `collectReports`. -/
def sanitizeAudit (route : String) : String :=
  let routeToUse := if route = "/" then "root" else route
  String.mk (((stripLeadingSlash routeToUse.toList).map
    (fun c => if c = '/' then '-' else c)).map
    (fun c => if allowedChar c then c else '_'))

/-- Modelled from the spec: the sanitization as one fused pass — root
mapped to `root`, one leading slash stripped, then each character either
kept (`[a-zA-Z0-9-_]`), turned into `-` (a slash) or into `_` (anything
else). -/
def sanitizeSpecModel (route : String) : String :=
  let r := if route = "/" then "root" else route
  String.mk ((stripLeadingSlash r.toList).map
    (fun c => if c = '/' then '-' else if allowedChar c then c else '_'))

/-- C8: the artifact-name sanitization agrees between the write site
(`runLighthouseAudit`) and the lookup site (`collectReports`), and both
compute exactly the pipeline the specification describes: `/` ↦ `root`,
strip one leading slash, `/` ↦ `-`, characters outside `[A-Za-z0-9-_]`
↦ `_`. -/
theorem sanitize_agrees (route : String) :
    sanitizeAudit route = sanitizeCollect route ∧
    sanitizeCollect route = sanitizeSpecModel route := by
  refine ⟨rfl, ?_⟩
  have hmap : ∀ l : List Char,
      (l.map (fun c => if c = '/' then '-' else c)).map
        (fun c => if allowedChar c then c else '_') =
      l.map (fun c => if c = '/' then '-' else if allowedChar c then c else '_') := by
    intro l
    rw [List.map_map]
    refine List.map_congr_left ?_
    intro c _
    by_cases hc : c = '/'
    · subst hc
      simp only [Function.comp_apply, if_pos rfl]
      decide
    · by_cases ha : allowedChar c <;> simp [Function.comp_apply, ha, hc]
  unfold sanitizeCollect sanitizeSpecModel
  exact congrArg String.mk (hmap _)

/-! ## `collectReports` (`executor.ts`)

The filesystem state is made explicit: `reportDirExists` models
`fs.existsSync(reportDir)` and `files` models `fs.readdirSync(reportDir)`. -/

/-- `ProcessedRoute` from `executor.ts`. -/
structure ProcessedRoute where
  originalRoute : String
  processedRoute : String
  completed : Bool
  inProgress : Bool
deriving DecidableEq

/-- `LighthouseReport` from `fileUtils.ts` (the `AuditResult` of the
spec); the optional score block is not needed by any claim. -/
structure LighthouseReport where
  outputPath : String
  route : String
  url : String
deriving DecidableEq

/-- `joinUrl(baseUrl, path)` from `routeUtils.ts`. -/
def joinUrl (baseUrl path : String) : String :=
  let cleanBaseUrl := if baseUrl.endsWith "/" then baseUrl.dropRight 1 else baseUrl
  let cleanPath := if path.startsWith "/" then path else "/" ++ path
  cleanBaseUrl ++ cleanPath

/-- `collectReports(processedRoutes, reportDir, baseUrl)` from
`executor.ts`: when the report directory exists, for each processed route
in order, look up `<sanitized>.html` among the directory's files and emit
a report when found; otherwise return the empty list. `path.join` of the
directory and file name is modelled as slash concatenation. -/
def collectReports (processedRoutes : List ProcessedRoute)
    (reportDirExists : Bool) (files : List String)
    (reportDir baseUrl : String) : List LighthouseReport :=
  if reportDirExists then
    processedRoutes.filterMap fun route =>
      let sanitizedPath := sanitizeCollect route.processedRoute
      match files.find? (fun file => file = sanitizedPath ++ ".html") with
      | some reportFile => some
          { outputPath := reportDir ++ "/" ++ reportFile
            route := route.processedRoute
            url := joinUrl baseUrl route.processedRoute }
      | none => none
  else []

/-- The pre-processing of the batch (`executor.ts`, lines 44–49): each
input route is paired with its parameter-substituted form, initially
neither completed nor in progress. -/
def mkProcessedRoute (pv : List (String × String)) (route : String) :
    ProcessedRoute :=
  { originalRoute := route
    processedRoute := applyParamValues route pv
    completed := false
    inProgress := false }

theorem find?_eq_self {files : List String} {x y : String}
    (h : files.find? (fun f => f = x) = some y) : y = x := by
  have := List.find?_some h
  simpa using this

theorem find?_isSome_iff_mem (files : List String) (x : String) :
    (files.find? (fun f => f = x)).isSome ↔ x ∈ files := by
  rw [List.find?_isSome]
  constructor
  · rintro ⟨f, hf, hfx⟩
    simpa using (by simpa using hfx) ▸ hf
  · intro hx
    exact ⟨x, hx, by simp⟩

/-- The success branch of collection: a route contributes a report
exactly when its expected artifact name occurs among the files. -/
theorem collectReports_eq_filter (pr : List ProcessedRoute)
    (files : List String) (reportDir baseUrl : String) :
    collectReports pr true files reportDir baseUrl =
      (pr.filter (fun r =>
        (sanitizeCollect r.processedRoute ++ ".html") ∈ files)).map
        (fun r =>
          { outputPath := reportDir ++ "/" ++ (sanitizeCollect r.processedRoute ++ ".html")
            route := r.processedRoute
            url := joinUrl baseUrl r.processedRoute }) := by
  induction pr with
  | nil => rfl
  | cons r rest ih =>
    simp only [collectReports, if_pos] at ih ⊢
    rw [List.filterMap_cons]
    cases hf : files.find? (fun file =>
        file = sanitizeCollect r.processedRoute ++ ".html") with
    | some file =>
      have hmem : (sanitizeCollect r.processedRoute ++ ".html") ∈ files := by
        rw [← find?_isSome_iff_mem]
        simp [hf]
      have hfile : file = sanitizeCollect r.processedRoute ++ ".html" :=
        find?_eq_self hf
      subst hfile
      simp [List.filter_cons, hmem, ih]
    | none =>
      have hmem : (sanitizeCollect r.processedRoute ++ ".html") ∉ files := by
        rw [← find?_isSome_iff_mem]
        simp [hf]
      simp [List.filter_cons, hmem, ih]

/-- C9: result collection tolerates missing artifacts. For Done processed
routes, collection over an existing report directory returns one
`AuditResult` per route whose expected artifact `<sanitized>.html` occurs
among the directory's files, omits (without error — the function is
total) every route whose artifact is absent, and returns `[]` when the
report directory does not exist. -/
theorem collectReports_tolerates_missing (pr : List ProcessedRoute)
    (files : List String) (reportDir baseUrl : String)
    (_hdone : ∀ r ∈ pr, r.completed = true) :
    collectReports pr true files reportDir baseUrl =
      (pr.filter (fun r =>
        (sanitizeCollect r.processedRoute ++ ".html") ∈ files)).map
        (fun r =>
          { outputPath := reportDir ++ "/" ++ (sanitizeCollect r.processedRoute ++ ".html")
            route := r.processedRoute
            url := joinUrl baseUrl r.processedRoute }) ∧
    collectReports pr false files reportDir baseUrl = [] :=
  ⟨collectReports_eq_filter pr files reportDir baseUrl, rfl⟩

/-- C9 (witness): a concrete collection in which `/`'s artifact
`root.html` is present and `/x`'s artifact `x.html` is absent. -/
theorem collectReports_tolerates_missing_witness :
    collectReports
      [⟨"/", "/", true, false⟩, ⟨"/x", "/x", true, false⟩]
      true ["root.html"] "dir" "http://b" =
      ([⟨"/", "/", true, false⟩, ⟨"/x", "/x", true, false⟩].filter
        (fun r : ProcessedRoute =>
          (sanitizeCollect r.processedRoute ++ ".html") ∈ ["root.html"])).map
        (fun r =>
          { outputPath := "dir" ++ "/" ++ (sanitizeCollect r.processedRoute ++ ".html")
            route := r.processedRoute
            url := joinUrl "http://b" r.processedRoute }) ∧
    collectReports
      [⟨"/", "/", true, false⟩, ⟨"/x", "/x", true, false⟩]
      false ["root.html"] "dir" "http://b" = [] :=
  collectReports_tolerates_missing _ _ _ _ (by decide)

/-- Collected report routes form an order-preserving subsequence of the
processed routes they were collected from. -/
theorem collectReports_map_route_sublist (pr : List ProcessedRoute)
    (dirExists : Bool) (files : List String) (reportDir baseUrl : String) :
    ((collectReports pr dirExists files reportDir baseUrl).map
      (fun rep => rep.route)).Sublist
      (pr.map (fun r => r.processedRoute)) := by
  cases dirExists with
  | false => simp [collectReports]
  | true =>
    induction pr with
    | nil => simp [collectReports]
    | cons r rest ih =>
      simp only [collectReports, if_pos] at ih ⊢
      rw [List.filterMap_cons]
      cases hf : files.find? (fun file =>
          file = sanitizeCollect r.processedRoute ++ ".html") with
      | some file =>
        simpa using List.Sublist.cons₂ r.processedRoute ih
      | none =>
        simpa using List.Sublist.cons r.processedRoute ih

/-- C10 (implicit): the result order is independent of the completion
order. For every input route list and every file set the workers may have
produced (any completion interleaving), the routes of the collected
`AuditResult` list form an order-preserving subsequence of the
parameter-substituted input route list, because collection iterates the
`ProcessedRoute` list built from the input. -/
theorem batch_result_order_preserved (routes : List String)
    (pv : List (String × String)) (dirExists : Bool) (files : List String)
    (reportDir baseUrl : String) :
    ((collectReports (routes.map (mkProcessedRoute pv)) dirExists files
      reportDir baseUrl).map (fun rep => rep.route)).Sublist
      (routes.map (fun r => applyParamValues r pv)) := by
  have h := collectReports_map_route_sublist (routes.map (mkProcessedRoute pv))
    dirExists files reportDir baseUrl
  simpa [List.map_map, mkProcessedRoute, Function.comp] using h

/-! ## Ignore-pattern filtering (`index.ts`)

The source converts each pattern to a regular expression with
`pattern.replace(/\*/g, ".*")` and tests `new RegExp("^" + p + "$")`
against the route, escaping nothing. For patterns built from `'*'` and
characters with no special regex meaning, the resulting regex is an
anchored concatenation of literal characters, `.` (any one character) and
`.*` (any substring); `gmatch` over `tokensOf` implements exactly that
matcher. -/

/-- One token of the regex the source builds from an ignore pattern. -/
inductive GTok where
  | lit (c : Char)
  | dot
  | star
deriving DecidableEq

/-- Tokenization of a pattern: `*` becomes `.*` (token `star`), `.`
keeps its regex meaning (token `dot`), every other character is a
literal. Faithful to `new RegExp("^" + pattern.replace(/\*/g, ".*") + "$")`
for patterns containing no further regex metacharacters. -/
def tokensOf (p : List Char) : List GTok :=
  p.map fun c => if c = '*' then .star else if c = '.' then .dot else .lit c

/-- All suffixes of a string, longest first (the string itself included,
ending with the empty suffix). -/
def suffixes : List Char → List (List Char)
  | [] => [[]]
  | c :: cs => (c :: cs) :: suffixes cs

/-- Anchored matcher for the token regex: a literal matches itself, `.`
matches any one character, and `.*` (token `star`) matches any prefix of
the remaining input — i.e. the rest of the regex must match some suffix. -/
def gmatch : List GTok → List Char → Bool
  | [], s => s.isEmpty
  | .lit _ :: _, [] => false
  | .lit c :: ts, d :: ds => c = d && gmatch ts ds
  | .dot :: _, [] => false
  | .dot :: ts, _ :: ds => gmatch ts ds
  | .star :: ts, s => (suffixes s).any (gmatch ts)

/-- `routes.filter(...)` over the ignore patterns, from `runLighthouse`
(`index.ts`): a route is kept iff it matches none of the patterns. -/
def filterIgnoredRoutes (routes ignorePatterns : List String) : List String :=
  if ignorePatterns.length > 0 then
    routes.filter fun route =>
      !(ignorePatterns.any fun pattern =>
        gmatch (tokensOf pattern.toList) route.toList)
  else routes

/-- Modelled from the spec: literal glob matching, executable form —
`*` matches any substring (i.e. the rest of the pattern must match some
suffix), every other pattern character matches itself, anchored at both
ends. -/
def specGlobMatch : List Char → List Char → Bool
  | [], s => s.isEmpty
  | '*' :: ps, s => (suffixes s).any (specGlobMatch ps)
  | _ :: _, [] => false
  | p :: ps, c :: s => p = c && specGlobMatch ps s

/-- Modelled from the spec: literal glob matching, declarative form. -/
inductive GlobMatches : List Char → List Char → Prop where
  | nil : GlobMatches [] []
  | lit {c : Char} {p s : List Char} : c ≠ '*' → GlobMatches p s →
      GlobMatches (c :: p) (c :: s)
  | star {p s : List Char} (w : List Char) : GlobMatches p s →
      GlobMatches ('*' :: p) (w ++ s)

theorem mem_suffixes (t s : List Char) : t ∈ suffixes s ↔ ∃ w, w ++ t = s := by
  induction s with
  | nil =>
    simp only [suffixes, List.mem_singleton]
    constructor
    · rintro rfl; exact ⟨[], rfl⟩
    · rintro ⟨w, hw⟩
      exact (List.append_eq_nil.mp hw).2
  | cons c cs ih =>
    simp only [suffixes, List.mem_cons, ih]
    constructor
    · rintro (rfl | ⟨w, rfl⟩)
      · exact ⟨[], rfl⟩
      · exact ⟨c :: w, rfl⟩
    · rintro ⟨w, hw⟩
      cases w with
      | nil => exact Or.inl (by simpa using hw)
      | cons c0 w' =>
        rw [List.cons_append, List.cons.injEq] at hw
        exact Or.inr ⟨w', hw.2⟩

theorem globMatches_of_specGlobMatch (p : List Char) :
    ∀ s, specGlobMatch p s = true → GlobMatches p s := by
  induction p with
  | nil =>
    intro s h
    cases s with
    | nil => exact GlobMatches.nil
    | cons c cs => simp [specGlobMatch] at h
  | cons q ps ih =>
    intro s h
    by_cases hq : q = '*'
    · subst hq
      rw [specGlobMatch.eq_2, List.any_eq_true] at h
      obtain ⟨t, ht, hmatch⟩ := h
      obtain ⟨w, rfl⟩ := (mem_suffixes t s).mp ht
      exact GlobMatches.star w (ih t hmatch)
    · cases s with
      | nil =>
        rw [specGlobMatch.eq_3 q ps (fun hh => hq hh)] at h
        exact absurd h (by simp)
      | cons c s' =>
        rw [specGlobMatch.eq_4 q ps c s' (fun hh => hq hh)] at h
        simp only [Bool.and_eq_true] at h
        rcases h with ⟨h1, h2⟩
        have hqc : q = c := of_decide_eq_true h1
        subst hqc
        exact GlobMatches.lit hq (ih s' h2)

theorem specGlobMatch_of_globMatches {p s : List Char}
    (h : GlobMatches p s) : specGlobMatch p s = true := by
  induction h with
  | nil => rfl
  | @lit c p' s' hc _ ih =>
    rw [specGlobMatch.eq_4 c p' c s' (fun hh => hc hh)]
    simp [ih]
  | @star p' s' w _ ih =>
    rw [specGlobMatch.eq_2, List.any_eq_true]
    exact ⟨s', (mem_suffixes s' (w ++ s')).mpr ⟨w, rfl⟩, ih⟩

/-- Regex metacharacters (other than `*`, which the source rewrites to
`.*`) that the source passes into `new RegExp` unescaped. -/
def regexMetaChars : List Char := ['.', '(', ')', '[', ']', '{', '}', '|', '^', '$', '+', '?', '\\']

/-- A pattern character with no special regex meaning. -/
def safePatternChar (c : Char) : Bool := !(regexMetaChars.contains c)

/-- On patterns free of unguarded regex metacharacters, the regex the
source builds matches exactly like the literal glob of the spec. -/
theorem gmatch_tokensOf_eq_spec (p : List Char)
    (hp : ∀ c ∈ p, safePatternChar c = true) :
    ∀ s, gmatch (tokensOf p) s = specGlobMatch p s := by
  induction p with
  | nil => intro s; rfl
  | cons q ps ih =>
    have hq := hp q (List.mem_cons_self q ps)
    have hps : ∀ c ∈ ps, safePatternChar c = true :=
      fun c hc => hp c (List.mem_cons_of_mem q hc)
    have hqdot : ¬q = '.' := by
      intro hq'; subst hq'
      exact absurd hq (by decide)
    intro s
    by_cases hqs : q = '*'
    · subst hqs
      have htok : tokensOf ('*' :: ps) = .star :: tokensOf ps := by
        simp [tokensOf]
      rw [htok, specGlobMatch.eq_2]
      show (suffixes s).any (gmatch (tokensOf ps)) = _
      rw [funext (ih hps)]
    · have htok : tokensOf (q :: ps) = .lit q :: tokensOf ps := by
        simp [tokensOf, hqs, hqdot]
      rw [htok]
      cases s with
      | nil => rw [specGlobMatch.eq_3 q ps (fun hh => hqs hh)]; rfl
      | cons c s' =>
        rw [specGlobMatch.eq_4 q ps c s' (fun hh => hqs hh)]
        show (decide (q = c) && gmatch (tokensOf ps) s') = _
        rw [ih hps s']

/-- C6 (counterexample): the claim says every non-`*` pattern character
is matched literally. The pattern `/a.` contains no `*`, so under the
claimed semantics it matches only the literal route `/a.`; but the source
converts the pattern to the regex `^/a.$` without escaping, `.` matches
any character, so the route `/ab` is dropped even though it does not
glob-match the pattern. -/
theorem ignore_filter_literal_counterexample :
    filterIgnoredRoutes ["/ab"] ["/a."] = [] ∧
    ¬GlobMatches ("/a." : String).toList ("/ab" : String).toList := by
  refine ⟨by decide, fun h => ?_⟩
  exact absurd (specGlobMatch_of_globMatches h) (by decide)

/-- C6 (amended): for ignore patterns whose characters are `*` or
characters with no special regex meaning (no `.`, `(`, `)`, `[`, `]`,
`{`, `}`, `|`, `^`, `$`, `+`, `?`, `\`), a route is dropped by the ignore
filter if and only if it matches at least one pattern, where matching is
full-string anchored at both ends, `*` matches zero or more of any
character, and every other pattern character is matched literally. (In
general the source builds a regex from the pattern without escaping, so
metacharacters keep their regex meaning.) -/
theorem ignore_filter_semantics (routes patterns : List String)
    (hsafe : ∀ p ∈ patterns, ∀ c ∈ p.toList, safePatternChar c = true) :
    ∀ r ∈ routes,
      (r ∉ filterIgnoredRoutes routes patterns ↔
        ∃ p ∈ patterns, GlobMatches p.toList r.toList) := by
  intro r hr
  by_cases hpat : patterns.length > 0
  · have hmem : r ∈ filterIgnoredRoutes routes patterns ↔
        ¬(patterns.any fun pattern =>
          gmatch (tokensOf pattern.toList) r.toList) = true := by
      simp [filterIgnoredRoutes, hpat, List.mem_filter, hr]
    have hnot : r ∉ filterIgnoredRoutes routes patterns ↔
        (patterns.any fun pattern =>
          gmatch (tokensOf pattern.toList) r.toList) = true := by
      rw [not_congr hmem]
      simp
    rw [hnot, List.any_eq_true]
    constructor
    · rintro ⟨p, hp, hg⟩
      refine ⟨p, hp, globMatches_of_specGlobMatch _ _ ?_⟩
      rw [← gmatch_tokensOf_eq_spec p.toList (hsafe p hp)]
      exact hg
    · rintro ⟨p, hp, hg⟩
      refine ⟨p, hp, ?_⟩
      rw [gmatch_tokensOf_eq_spec p.toList (hsafe p hp)]
      exact specGlobMatch_of_globMatches hg
  · have hp0 : patterns = [] := List.length_eq_zero.mp (by omega)
    subst hp0
    simp [filterIgnoredRoutes, hr]

/-- C6 (witness): with pattern `/a/*`, the route `/a/b` is dropped and
the route `/c` is kept, in agreement with literal glob matching. -/
theorem ignore_filter_semantics_witness :
    ("/a/b" ∉ filterIgnoredRoutes ["/a/b", "/c"] ["/a/*"] ↔
      ∃ p ∈ ["/a/*"], GlobMatches p.toList ("/a/b" : String).toList) :=
  ignore_filter_semantics ["/a/b", "/c"] ["/a/*"] (by decide) "/a/b" (by decide)

/-! ## Batch-mode parameter resolution (`index.ts`, run-all mode)

The run-all branch of `runLighthouse` computes `missingParams` from the
unique parameters of the selected routes and the preset values parsed from
`--params`, then either prompts interactively, exits with code 1
(`process.exit(1)`, modelled as `Except.error` — no audit is reached), or
proceeds to audit. -/

/-- Outcome of the parameter-resolution branch of run-all mode. -/
inductive ParamResolution where
  | prompt (missing : List String)
  | exitError (missing : List String)
  | proceed
deriving DecidableEq

/-- `uniqueParams.filter((param) => !paramValues[param])`: a parameter is
missing when it is absent from the mapping or maps to the empty string
(both falsy in JS). -/
def missingParams (uniqueParams : List String)
    (paramValues : List (String × String)) : List String :=
  uniqueParams.filter fun param =>
    match List.lookup param paramValues with
    | some v => v = ""
    | none => true

/-- The three-way branch of `runLighthouse` (run-all mode): prompt when
parameters are missing and no preset values were supplied; exit with an
error when parameters are missing but preset values were supplied;
otherwise proceed. -/
def resolveBatchParams (uniqueParams : List String)
    (preset : List (String × String)) : ParamResolution :=
  let missing := missingParams uniqueParams preset
  if missing.length > 0 ∧ preset.length = 0 then .prompt missing
  else if missing.length > 0 then .exitError missing
  else .proceed

/-- Run-all mode up to the audit loop: on `exitError` the process exits
with code 1 and no audit is invoked (`Except.error`); otherwise the
parameter-substituted routes that will be audited are produced
(`Except.ok`). `userValues` are the interactively collected answers,
merged over the presets. -/
def batchModeRun (routes : List String) (preset userValues : List (String × String)) :
    Except (List String) (List String) :=
  let uniqueParams := extractUniqueParams routes
  match resolveBatchParams uniqueParams preset with
  | .exitError missing => .error missing
  | .prompt _ => .ok (routes.map fun r => applyParamValues r (userValues ++ preset))
  | .proceed => .ok (routes.map fun r => applyParamValues r preset)

/-- C7: fatal missing-parameter policy in batch mode. If preset parameter
values were supplied (`preset ≠ []`) but some parameter of the selected
routes is missing a value, the run exits with an error carrying the
missing names before any audit executes (no substituted route list is
produced); and interactive prompting can only ever happen when no preset
values were supplied at all. -/
theorem batch_missing_params_fatal (routes : List String)
    (preset userValues : List (String × String))
    (hpreset : preset ≠ [])
    (hmissing : missingParams (extractUniqueParams routes) preset ≠ []) :
    batchModeRun routes preset userValues =
      .error (missingParams (extractUniqueParams routes) preset) ∧
    (∀ (up : List String) (pv : List (String × String)) (m : List String),
      resolveBatchParams up pv = .prompt m → pv = []) := by
  constructor
  · have hlen : (missingParams (extractUniqueParams routes) preset).length > 0 :=
      List.length_pos.mpr hmissing
    have hplen : ¬preset.length = 0 := by
      simpa [List.length_eq_zero] using hpreset
    simp [batchModeRun, resolveBatchParams, hlen, hplen]
  · intro up pv m h
    by_cases hcond : (missingParams up pv).length > 0 ∧ pv.length = 0
    · exact List.length_eq_zero.mp hcond.2
    · exfalso
      rw [resolveBatchParams] at h
      rw [if_neg hcond] at h
      by_cases h2 : (missingParams up pv).length > 0
      · rw [if_pos h2] at h; exact ParamResolution.noConfusion h
      · rw [if_neg h2] at h; exact ParamResolution.noConfusion h

/-- C7 (witness): route `/:id` with preset `{other: "x"}` exits with the
missing parameter `id` before any audit. -/
theorem batch_missing_params_fatal_witness :
    batchModeRun ["/:id"] [("other", "x")] [] =
      .error (missingParams (extractUniqueParams ["/:id"]) [("other", "x")]) ∧
    (∀ (up : List String) (pv : List (String × String)) (m : List String),
      resolveBatchParams up pv = .prompt m → pv = []) :=
  batch_missing_params_fatal ["/:id"] [("other", "x")] [] (by decide) (by decide)

/-! ## Route extraction from the directory tree (`routeUtils.ts`)

`getRoutes` walks the SvelteKit routes directory. The filesystem is an
explicit tree. `entry.name.startsWith(".")` etc. test a single-character
prefix/suffix, modelled by `strStartsWithChar`/`strEndsWithChar`;
`entry.name.slice(1, -1)` is modelled by `paramInner`. `normalizeUrlPath`
models `path.join(basePath, seg).replace(/\\/g, "/")` for the argument
shapes occurring here (a previously built base path and a non-empty
segment containing no `.`/`..` path components — directory entries whose
name starts with `.` are skipped before joining). -/

/-- A directory entry: a plain file or a subdirectory with its entries
in `readdirSync` order. -/
inductive FsEntry where
  | file (name : String)
  | dir (name : String) (entries : List FsEntry)

/-- `name.startsWith(c)` for a single character. -/
def strStartsWithChar (s : String) (c : Char) : Bool := s.toList.head? = some c

/-- `name.endsWith(c)` for a single character. -/
def strEndsWithChar (s : String) (c : Char) : Bool := s.toList.getLast? = some c

/-- `entry.name.slice(1, -1)`: the name without its first and last
characters. -/
def paramInner (name : String) : List Char := (name.toList.drop 1).dropLast

/-- `normalizeUrlPath([basePath, seg])` from `fileUtils.ts`:
`path.join` of the two parts followed by replacing every backslash with a
forward slash. -/
def normalizeUrlPath (basePath seg : String) : String :=
  String.mk ((if basePath = "" then seg else basePath ++ "/" ++ seg).toList.map
    (fun c => if c = '\\' then '/' else c))

mutual

/-- The contribution of one directory entry to `getRoutes(dir, basePath)`:
hidden directories are skipped, `(group)` directories recurse with the
same base path, `[param]` directories recurse with `:param` appended, any
other directory recurses with its name appended, and a `+page.svelte`
file emits `basePath || "/"`. -/
def routesOfEntry : FsEntry → String → List String
  | .file name, basePath =>
    if name = "+page.svelte" then [if basePath = "" then "/" else basePath] else []
  | .dir name entries, basePath =>
    if strStartsWithChar name '.' then []
    else if strStartsWithChar name '(' && strEndsWithChar name ')' then
      routesOfEntries entries basePath
    else if strStartsWithChar name '[' && strEndsWithChar name ']' then
      routesOfEntries entries
        (normalizeUrlPath basePath (String.mk (':' :: paramInner name)))
    else routesOfEntries entries (normalizeUrlPath basePath name)

/-- `getRoutes` over a list of entries, in order. -/
def routesOfEntries : List FsEntry → String → List String
  | [], _ => []
  | e :: rest, basePath => routesOfEntry e basePath ++ routesOfEntries rest basePath

end

/-- A segment exhibiting the grouping syntax: wrapped in parentheses. -/
def parenWrapped (g : List Char) : Prop :=
  g.head? = some '(' ∧ g.getLast? = some ')'

instance (g : List Char) : Decidable (parenWrapped g) := by
  unfold parenWrapped; infer_instance

/-- Well-formed filesystem entry names: non-empty and free of path
separators (`/` is impossible in a directory entry name on every
platform, `\` on Windows). -/
def goodName (n : String) : Bool :=
  !n.isEmpty && !(n.toList.contains '/') && !(n.toList.contains '\\')

mutual

/-- All directory names in the entry are well formed. -/
def goodEntry : FsEntry → Bool
  | .file _ => true
  | .dir name entries => goodName name && goodEntries entries

def goodEntries : List FsEntry → Bool
  | [] => true
  | e :: rest => goodEntry e && goodEntries rest

end

/-- Invariant carried by the accumulated base path: none of its
`'/'`-segments is paren-wrapped, and it contains no backslash. -/
def baseOk (base : String) : Prop :=
  (∀ g ∈ splitSlash base.toList, ¬parenWrapped g) ∧ '\\' ∉ base.toList

theorem map_backslash_id (l : List Char) (h : '\\' ∉ l) :
    l.map (fun c => if c = '\\' then '/' else c) = l := by
  induction l with
  | nil => rfl
  | cons c rest ih =>
    simp only [List.mem_cons, not_or] at h
    have hc : ¬c = '\\' := fun hc => h.1 hc.symm
    simp [hc, ih h.2]

/-- Appending a slash-free, backslash-free, non-paren-wrapped segment
preserves the base-path invariant. -/
theorem baseOk_normalizeUrlPath (base seg : String) (hb : baseOk base)
    (hslash : '/' ∉ seg.toList) (hbs : '\\' ∉ seg.toList)
    (hpar : ¬parenWrapped seg.toList) :
    baseOk (normalizeUrlPath base seg) := by
  by_cases h0 : base = ""
  · subst h0
    have : (normalizeUrlPath "" seg).toList = seg.toList := by
      show seg.toList.map _ = seg.toList
      exact map_backslash_id _ hbs
    constructor
    · intro g hg
      rw [this, splitSlash_of_no_slash seg.toList hslash] at hg
      rw [List.mem_singleton] at hg
      subst hg
      exact hpar
    · rw [this]; exact hbs
  · have hsplit : (normalizeUrlPath base seg).toList =
        base.toList ++ '/' :: seg.toList := by
      rw [normalizeUrlPath, if_neg h0]
      show ((base ++ "/" ++ seg).toList).map _ = _
      have happ : (base ++ "/" ++ seg).toList = base.toList ++ '/' :: seg.toList := by
        simp [String.toList, String.data_append]
      rw [happ, List.map_append, map_backslash_id base.toList hb.2,
        List.map_cons]
      simp only [if_neg (by decide : ¬('/' : Char) = '\\')]
      rw [map_backslash_id seg.toList hbs]
    constructor
    · intro g hg
      rw [hsplit, splitSlash_append_slash,
        splitSlash_of_no_slash seg.toList hslash, List.mem_append,
        List.mem_singleton] at hg
      rcases hg with hg | rfl
      · exact hb.1 g hg
      · exact hpar
    · rw [hsplit]
      intro hmem
      rcases List.mem_append.mp hmem with h | h
      · exact hb.2 h
      · rcases List.mem_cons.mp h with h | h
        · exact absurd h (by decide)
        · exact hbs h

theorem not_mem_of_contains_eq_false {l : List Char} {c : Char}
    (h : l.contains c = false) : c ∉ l := by
  intro hmem
  have hc : l.contains c = true := by simpa using hmem
  rw [h] at hc
  exact Bool.noConfusion hc

mutual

/-- Every route a single well-named entry emits under an invariant base
path has no paren-wrapped segment. -/
theorem routesOfEntry_no_paren (e : FsEntry) (base : String)
    (he : goodEntry e = true) (hb : baseOk base) :
    ∀ r ∈ routesOfEntry e base, ∀ g ∈ splitSlash r.toList, ¬parenWrapped g := by
  match e with
  | .file name =>
    intro r hr
    rw [routesOfEntry] at hr
    by_cases hn : name = "+page.svelte"
    · rw [if_pos hn, List.mem_singleton] at hr
      subst hr
      by_cases h0 : base = ""
      · rw [if_pos h0]
        intro g hg
        have hsp : splitSlash ("/" : String).toList = [[], []] := by decide
        rw [hsp] at hg
        rcases List.mem_cons.mp hg with rfl | hg'
        · rintro ⟨h1, -⟩; simp at h1
        · rw [List.mem_singleton] at hg'
          subst hg'
          rintro ⟨h1, -⟩; simp at h1
      · rw [if_neg h0]
        exact hb.1
    · rw [if_neg hn] at hr
      exact absurd hr (List.not_mem_nil r)
  | .dir name entries =>
    intro r hr
    have hgood : goodName name = true ∧ goodEntries entries = true := by
      rw [goodEntry] at he
      exact Bool.and_eq_true_iff.mp he
    have hnm := hgood.1
    rw [goodName] at hnm
    obtain ⟨⟨-, hns⟩, hnb⟩ :
        ((!name.isEmpty) = true ∧ (!(name.toList.contains '/')) = true) ∧
          (!(name.toList.contains '\\')) = true := by
      rw [← Bool.and_eq_true_iff, ← Bool.and_eq_true_iff]
      exact hnm
    have hnoslash : '/' ∉ name.toList :=
      not_mem_of_contains_eq_false (by simpa using hns)
    have hnobackslash : '\\' ∉ name.toList :=
      not_mem_of_contains_eq_false (by simpa using hnb)
    rw [routesOfEntry] at hr
    by_cases hdot : strStartsWithChar name '.' = true
    · rw [if_pos hdot] at hr
      exact absurd hr (List.not_mem_nil r)
    · rw [if_neg hdot] at hr
      by_cases hgrp : (strStartsWithChar name '(' && strEndsWithChar name ')') = true
      · rw [if_pos hgrp] at hr
        exact routesOfEntries_no_paren entries base hgood.2 hb r hr
      · rw [if_neg hgrp] at hr
        by_cases hparam : (strStartsWithChar name '[' && strEndsWithChar name ']') = true
        · rw [if_pos hparam] at hr
          refine routesOfEntries_no_paren entries _ hgood.2 ?_ r hr
          refine baseOk_normalizeUrlPath base _ hb ?_ ?_ ?_
          · show '/' ∉ ':' :: paramInner name
            intro hmem
            rcases List.mem_cons.mp hmem with h | h
            · exact absurd h (by decide)
            · exact hnoslash (List.drop_subset 1 name.toList
                (List.dropLast_subset _ h))
          · show '\\' ∉ ':' :: paramInner name
            intro hmem
            rcases List.mem_cons.mp hmem with h | h
            · exact absurd h (by decide)
            · exact hnobackslash (List.drop_subset 1 name.toList
                (List.dropLast_subset _ h))
          · rintro ⟨h1, -⟩
            simp at h1
        · rw [if_neg hparam] at hr
          refine routesOfEntries_no_paren entries _ hgood.2 ?_ r hr
          refine baseOk_normalizeUrlPath base name hb hnoslash hnobackslash ?_
          rintro ⟨h1, h2⟩
          apply hgrp
          rw [Bool.and_eq_true_iff]
          constructor
          · rw [strStartsWithChar]
            simpa using h1
          · rw [strEndsWithChar]
            simpa using h2

/-- Routes emitted by a list of well-named entries under an invariant
base path have no paren-wrapped segment. -/
theorem routesOfEntries_no_paren (es : List FsEntry) (base : String)
    (he : goodEntries es = true) (hb : baseOk base) :
    ∀ r ∈ routesOfEntries es base, ∀ g ∈ splitSlash r.toList, ¬parenWrapped g := by
  match es with
  | [] =>
    intro r hr
    rw [routesOfEntries] at hr
    exact absurd hr (List.not_mem_nil r)
  | e :: rest =>
    intro r hr
    rw [goodEntries] at he
    obtain ⟨he1, he2⟩ := Bool.and_eq_true_iff.mp he
    rw [routesOfEntries] at hr
    rcases List.mem_append.mp hr with h | h
    · exact routesOfEntry_no_paren e base he1 hb r h
    · exact routesOfEntries_no_paren rest base he2 hb r h

end

/-- C5: group transparency of route extraction. For every directory tree
with well-formed entry names, (1) no route emitted by `getRoutes` has a
`'/'`-segment of the form `(name)`; (2) a directory whose name is wrapped
in group delimiters contributes no path segment (`getRoutes` recurses
into it with the base path unchanged); and (3) a `+page.svelte` marker
nested under a group-wrapper directory with no other segments yields
exactly the parent's base path (`basePath || "/"`). -/
theorem getRoutes_group_transparent (es : List FsEntry)
    (hgood : goodEntries es = true) :
    (∀ r ∈ routesOfEntries es "", ∀ g ∈ splitSlash r.toList, ¬parenWrapped g) ∧
    (∀ (gname : String) (entries : List FsEntry) (base : String),
      strStartsWithChar gname '(' = true → strEndsWithChar gname ')' = true →
      routesOfEntry (.dir gname entries) base = routesOfEntries entries base) ∧
    (∀ (gname base : String),
      strStartsWithChar gname '(' = true → strEndsWithChar gname ')' = true →
      routesOfEntry (.dir gname [.file "+page.svelte"]) base =
        [if base = "" then "/" else base]) := by
  have hgroup : ∀ (gname : String) (entries : List FsEntry) (base : String),
      strStartsWithChar gname '(' = true → strEndsWithChar gname ')' = true →
      routesOfEntry (.dir gname entries) base = routesOfEntries entries base := by
    intro gname entries base h1 h2
    have h1' : gname.toList.head? = some '(' := by
      rw [strStartsWithChar] at h1
      exact of_decide_eq_true h1
    have hdot : ¬strStartsWithChar gname '.' = true := by
      rw [strStartsWithChar]
      have h1d : gname.data.head? = some '(' := h1'
      simp [h1d]
    rw [routesOfEntry, if_neg hdot,
      if_pos (Bool.and_eq_true_iff.mpr ⟨h1, h2⟩)]
  refine ⟨?_, hgroup, ?_⟩
  · refine routesOfEntries_no_paren es "" hgood ?_
    constructor
    · intro g hg
      have hsp : splitSlash ("" : String).toList = [[]] := by decide
      rw [hsp, List.mem_singleton] at hg
      subst hg
      rintro ⟨h1, -⟩
      simp at h1
    · intro h
      exact absurd h (by decide)
  · intro gname base h1 h2
    rw [hgroup gname _ base h1 h2, routesOfEntries, routesOfEntries,
      routesOfEntry]
    simp

/-- C5 (witness): a concrete tree with a group directory and a plain
directory; the group wrapper is transparent and no emitted route has a
paren-wrapped segment. -/
theorem getRoutes_group_transparent_witness :
    (∀ r ∈ routesOfEntries
      [FsEntry.dir "(group)" [FsEntry.file "+page.svelte"],
       FsEntry.dir "about" [FsEntry.file "+page.svelte"]] "",
      ∀ g ∈ splitSlash r.toList, ¬parenWrapped g) ∧
    (∀ (gname : String) (entries : List FsEntry) (base : String),
      strStartsWithChar gname '(' = true → strEndsWithChar gname ')' = true →
      routesOfEntry (.dir gname entries) base = routesOfEntries entries base) ∧
    (∀ (gname base : String),
      strStartsWithChar gname '(' = true → strEndsWithChar gname ')' = true →
      routesOfEntry (.dir gname [.file "+page.svelte"]) base =
        [if base = "" then "/" else base]) :=
  getRoutes_group_transparent
    [FsEntry.dir "(group)" [FsEntry.file "+page.svelte"],
     FsEntry.dir "about" [FsEntry.file "+page.svelte"]] (by decide)

/-! ## The dynamic scheduler (`executor.ts`, `processBatchAudits`)

The single-threaded event loop is modelled by a step relation on the
per-route status list. `fillOne` is one iteration of the refill loop
(`getNextRoute` finds the first route that is neither completed nor in
progress, and `processRoute` marks it in progress synchronously before
its first `await`); `refill` is the `while (running.size < LIMIT)` loop
(its fuel `s.length` bounds the number of iterations, each of which
consumes a pending route). A step of the relation is one observable
transition of the event loop: some in-flight route completes (marked
`done` by `processRoute` whether or not its audit threw) and the race
continuation synchronously refills the pool before the next `await`.
`initState` is the initial fill of the worker pool. -/

/-- Status of one `ProcessedRoute` in the scheduler:
`pending` = `!completed && !inProgress`, `inProgress`, `done`. -/
inductive RStatus where
  | pending
  | inProgress
  | done
deriving DecidableEq

/-- The scheduler state: the status of each route, in input order. -/
abbrev SchedState := List RStatus

/-- Number of in-flight routes (`running.size`). -/
def countIP (s : SchedState) : Nat := s.count .inProgress

/-- Number of waiting routes. -/
def countPending (s : SchedState) : Nat := s.count .pending

/-- `getNextRoute` + start of `processRoute`: mark the first pending
route in progress; `none` when no route is pending. -/
def fillOne : SchedState → Option SchedState
  | [] => none
  | .pending :: rest => some (.inProgress :: rest)
  | x :: rest => (fillOne rest).map (x :: ·)

/-- The refill loop with explicit fuel: start pending routes until the
pool holds `c` workers or no pending route remains. -/
def refillFuel : Nat → Nat → SchedState → SchedState
  | 0, _, s => s
  | n + 1, c, s =>
    if countIP s < c then
      match fillOne s with
      | some s' => refillFuel n c s'
      | none => s
    else s

/-- The refill loop; `s.length` fuel suffices since every iteration
consumes one pending route. -/
def refill (c : Nat) (s : SchedState) : SchedState := refillFuel s.length c s

/-- The state after the initial filling of the worker pool over a batch
of `k` pending routes. -/
def initState (c k : Nat) : SchedState := refill c (List.replicate k .pending)

/-- One observable scheduler transition: an in-flight route completes
(it is marked done regardless of audit success) and the pool is refilled. -/
inductive SchedStep (c : Nat) : SchedState → SchedState → Prop where
  | complete (s : SchedState) (i : Nat) (h : s[i]? = some .inProgress) :
      SchedStep c s (refill c (s.set i .done))

/-- States reachable by the scheduler on a batch of `k` routes with
concurrency limit `c`. -/
inductive SchedReachable (c k : Nat) : SchedState → Prop where
  | init : SchedReachable c k (initState c k)
  | step {s s' : SchedState} : SchedReachable c k s → SchedStep c s s' →
      SchedReachable c k s'

theorem fillOne_none (s : SchedState) (h : fillOne s = none) :
    countPending s = 0 := by
  induction s with
  | nil => rfl
  | cons x rest ih =>
    cases x with
    | pending =>
      exact Option.noConfusion
        (show (some (RStatus.inProgress :: rest) : Option SchedState) = none from h)
    | inProgress =>
      have h' : (fillOne rest).map (RStatus.inProgress :: ·) = none := h
      rw [Option.map_eq_none'] at h'
      have hres := ih h'
      simp [countPending, List.count_cons] at hres ⊢
      omega
    | done =>
      have h' : (fillOne rest).map (RStatus.done :: ·) = none := h
      rw [Option.map_eq_none'] at h'
      have hres := ih h'
      simp [countPending, List.count_cons] at hres ⊢
      omega

theorem fillOne_some (s s' : SchedState) (h : fillOne s = some s') :
    countIP s' = countIP s + 1 ∧ countPending s' + 1 = countPending s ∧
      s'.length = s.length := by
  induction s generalizing s' with
  | nil => exact Option.noConfusion h
  | cons x rest ih =>
    cases x with
    | pending =>
      have h' : (some (RStatus.inProgress :: rest) : Option SchedState) = some s' := h
      rw [Option.some.injEq] at h'
      subst h'
      refine ⟨?_, ?_, rfl⟩
      · simp [countIP, List.count_cons]
      · simp [countPending, List.count_cons]
    | inProgress =>
      have h' : (fillOne rest).map (RStatus.inProgress :: ·) = some s' := h
      rw [Option.map_eq_some'] at h'
      obtain ⟨t, ht, rfl⟩ := h'
      obtain ⟨h1, h2, h3⟩ := ih t ht
      refine ⟨?_, ?_, by simp [h3]⟩
      · simp only [countIP, List.count_cons] at h1 ⊢
        omega
      · simp only [countPending, List.count_cons] at h2 ⊢
        omega
    | done =>
      have h' : (fillOne rest).map (RStatus.done :: ·) = some s' := h
      rw [Option.map_eq_some'] at h'
      obtain ⟨t, ht, rfl⟩ := h'
      obtain ⟨h1, h2, h3⟩ := ih t ht
      refine ⟨?_, ?_, by simp [h3]⟩
      · simp only [countIP, List.count_cons] at h1 ⊢
        omega
      · simp only [countPending, List.count_cons] at h2 ⊢
        omega

theorem refillFuel_length (n c : Nat) (s : SchedState) :
    (refillFuel n c s).length = s.length := by
  induction n generalizing s with
  | zero => rfl
  | succ n ih =>
    rw [refillFuel]
    by_cases hip : countIP s < c
    · rw [if_pos hip]
      cases hf : fillOne s with
      | some s' =>
        simp only [hf]
        rw [ih s', (fillOne_some s s' hf).2.2]
      | none => simp only [hf]
    · rw [if_neg hip]

theorem refillFuel_sum (n c : Nat) (s : SchedState) :
    countIP (refillFuel n c s) + countPending (refillFuel n c s) =
      countIP s + countPending s := by
  induction n generalizing s with
  | zero => rfl
  | succ n ih =>
    rw [refillFuel]
    by_cases hip : countIP s < c
    · rw [if_pos hip]
      cases hf : fillOne s with
      | some s' =>
        simp only [hf]
        rw [ih s']
        obtain ⟨h1, h2, -⟩ := fillOne_some s s' hf
        omega
      | none => simp only [hf]
    · rw [if_neg hip]

theorem refillFuel_countIP (n c : Nat) (s : SchedState)
    (hip : countIP s ≤ c) (hp : countPending s ≤ n) :
    countIP (refillFuel n c s) = min c (countIP s + countPending s) := by
  induction n generalizing s with
  | zero =>
    rw [refillFuel]
    omega
  | succ n ih =>
    rw [refillFuel]
    by_cases hlt : countIP s < c
    · rw [if_pos hlt]
      cases hf : fillOne s with
      | some s' =>
        simp only [hf]
        obtain ⟨h1, h2, -⟩ := fillOne_some s s' hf
        rw [ih s' (by omega) (by omega)]
        omega
      | none =>
        simp only [hf]
        have h0 := fillOne_none s hf
        omega
    · rw [if_neg hlt]
      omega

/-- The pool invariant: the number of in-flight routes always equals
`min(concurrencyLimit, remaining)`, where remaining counts the routes
not yet done. -/
def SchedInv (c : Nat) (s : SchedState) : Prop :=
  countIP s = min c (countIP s + countPending s)

theorem schedInv_refill (c : Nat) (s : SchedState) (hip : countIP s ≤ c) :
    SchedInv c (refill c s) := by
  have hp : countPending s ≤ s.length := List.count_le_length _ _
  have h1 := refillFuel_countIP s.length c s hip hp
  have h2 := refillFuel_sum s.length c s
  rw [SchedInv, refill]
  omega

theorem count_set_done (s : SchedState) (i : Nat)
    (h : s[i]? = some .inProgress) :
    countIP (s.set i .done) + 1 = countIP s ∧
      countPending (s.set i .done) = countPending s := by
  induction s generalizing i with
  | nil => simp at h
  | cons x rest ih =>
    cases i with
    | zero =>
      have hx : x = .inProgress := by simpa using h
      subst hx
      constructor <;> simp [countIP, countPending, List.count_cons]
    | succ i =>
      have h' : rest[i]? = some .inProgress := by simpa using h
      obtain ⟨h1, h2⟩ := ih i h'
      constructor <;>
        · simp only [List.set_cons_succ, countIP, countPending,
            List.count_cons] at h1 h2 ⊢
          omega

/-- Every state the scheduler can reach satisfies the pool invariant. -/
theorem schedInv_reachable {c k : Nat} {s : SchedState}
    (h : SchedReachable c k s) : SchedInv c s := by
  induction h with
  | init =>
    apply schedInv_refill
    simp [countIP, List.count_replicate]
  | step hr hstep =>
    rename_i ih
    cases hstep with
    | complete i hi =>
      apply schedInv_refill
      obtain ⟨h1, h2⟩ := count_set_done _ i hi
      rw [SchedInv] at ih
      omega

/-- C1: bounded concurrency of the batch scheduler. For a batch of `k`
routes with concurrency limit `c` (with `1 ≤ c < k`), in every reachable
state of the scheduling step relation at most `c` routes are in progress,
and while pending routes remain the pool holds exactly
`min(c, remaining)` workers, `remaining` counting the routes not yet
done. -/
theorem scheduler_bounded_concurrency (c k : Nat) (s : SchedState)
    (_hc : 1 ≤ c) (_hck : c < k) (hreach : SchedReachable c k s) :
    countIP s ≤ c ∧
    (0 < countPending s →
      countIP s = min c (countIP s + countPending s)) := by
  have hinv := schedInv_reachable hreach
  rw [SchedInv] at hinv
  exact ⟨by omega, fun _ => hinv⟩

/-- C1 (witness): the initial state of a batch of 2 routes at
concurrency 1. -/
theorem scheduler_bounded_concurrency_witness :
    countIP (initState 1 2) ≤ 1 ∧
    (0 < countPending (initState 1 2) →
      countIP (initState 1 2) =
        min 1 (countIP (initState 1 2) + countPending (initState 1 2))) :=
  scheduler_bounded_concurrency 1 2 (initState 1 2) (by decide) (by decide)
    SchedReachable.init

/-- With at least one worker the scheduler cannot stall: a reachable
state with no in-flight route has no pending route either, so every
maximal run ends with the whole batch done. -/
theorem sched_no_starvation (c k : Nat) (s : SchedState) (hc : 1 ≤ c)
    (hreach : SchedReachable c k s) (hip : countIP s = 0) :
    countPending s = 0 := by
  have hinv := schedInv_reachable hreach
  rw [SchedInv] at hinv
  omega

/-! ## Partial-failure tolerance of the batch (`executor.ts`)

`processRoute` wraps the audit invocation in `try/catch`: on failure the
error is logged and nothing else happens; the lines after the `catch`
unconditionally mark the route completed and not in progress. On success
the audit writes the artifact `<sanitized>.html`; on failure it writes
nothing. `runBatchModel` composes the pre-processing, the per-route
outcomes under an arbitrary success predicate `ok` (the invoke function),
and the final collection over the artifacts actually produced. -/

/-- The effect of `processRoute` on its item once the awaited audit has
settled: completed and not in progress whether or not the audit threw,
together with the artifact the audit produced (none when it threw). -/
def processRouteModel (ok : Bool) (r : ProcessedRoute) :
    ProcessedRoute × Option String :=
  ({ r with completed := true, inProgress := false },
   if ok then some (sanitizeAudit r.processedRoute ++ ".html") else none)

/-- The batch pipeline of `processBatchAudits`: pre-process the routes,
process every route (the scheduler processes all of them regardless of
individual failures), and collect reports from the artifacts produced. -/
def runBatchModel (routes : List String) (pv : List (String × String))
    (ok : String → Bool) (reportDir baseUrl : String) : List LighthouseReport :=
  let processed := routes.map (mkProcessedRoute pv)
  let results := processed.map fun r => processRouteModel (ok r.processedRoute) r
  collectReports (results.map Prod.fst) true (results.filterMap Prod.snd)
    reportDir baseUrl

theorem sanitizeAudit_eq_sanitizeCollect (r : String) :
    sanitizeAudit r = sanitizeCollect r := rfl

theorem filterMap_ite_eq_map_filter {α β : Type} (l : List α) (p : α → Bool)
    (f : α → β) :
    l.filterMap (fun a => if p a then some (f a) else none) =
      (l.filter p).map f := by
  induction l with
  | nil => rfl
  | cons a rest ih =>
    rw [List.filterMap_cons, List.filter_cons]
    by_cases hp : p a
    · simp [hp, ih]
    · simp [hp, ih]

/-- C2 (counterexample): the claim says a failing item contributes no
`AuditResult` for every batch. Take the two distinct routes `/a.` and
`/a_`: both sanitize to the artifact name `a_`, so when the invocation
for `/a.` always throws and `/a_` succeeds, the successful audit writes
`a_.html` and `collectReports` matches that file for *both* routes — the
failed route `/a.` still appears in the result list. -/
theorem batch_collision_counterexample :
    sanitizeCollect "/a." = sanitizeCollect "/a_" ∧
    ("/a." : String) ≠ "/a_" ∧
    (fun r => !(r == "/a.")) "/a." = false ∧
    ((runBatchModel ["/a.", "/a_"] [] (fun r => !(r == "/a."))
      "dir" "http://b").map fun rep => rep.route) = ["/a.", "/a_"] := by
  exact ⟨by decide, by decide, by decide, by decide⟩

/-- C2 (amended): partial-failure tolerance of the batch scheduler.
Failures of the invoke function are absorbed at the item boundary: the
item is still marked Done and not in progress, and a failing invocation
contributes no artifact. Provided the sanitized artifact names of the
batch's routes are pairwise distinct, a failing item contributes no
`AuditResult` and the batch yields exactly one `AuditResult` per
successful route, in order, so no other item's result is affected (with
colliding sanitized names a failed route can pick up another route's
artifact during collection); moreover the scheduler itself cannot stall
(a reachable state with no in-flight worker has no pending work left),
so the batch always completes. -/
theorem batch_partial_failure_tolerance (routes : List String)
    (pv : List (String × String)) (ok : String → Bool)
    (reportDir baseUrl : String)
    (hnd : (routes.map fun r =>
      sanitizeCollect (applyParamValues r pv) ++ ".html").Nodup) :
    (∀ (b : Bool) (r : ProcessedRoute),
      (processRouteModel b r).1.completed = true ∧
      (processRouteModel b r).1.inProgress = false ∧
      (processRouteModel false r).2 = none) ∧
    ((runBatchModel routes pv ok reportDir baseUrl).map fun rep => rep.route) =
      (routes.map fun r => applyParamValues r pv).filter ok ∧
    (∀ (c : Nat) (s : SchedState), 1 ≤ c → SchedReachable c routes.length s →
      countIP s = 0 → countPending s = 0) := by
  refine ⟨fun b r => ⟨rfl, rfl, rfl⟩, ?_,
    fun c s hc hr hip => sched_no_starvation c routes.length s hc hr hip⟩
  have hmodel : runBatchModel routes pv ok reportDir baseUrl =
      collectReports
        (routes.map fun r =>
          { originalRoute := r
            processedRoute := applyParamValues r pv
            completed := true
            inProgress := false })
        true
        (routes.filterMap fun r =>
          if ok (applyParamValues r pv) then
            some (sanitizeCollect (applyParamValues r pv) ++ ".html")
          else none)
        reportDir baseUrl := by
    rw [runBatchModel]
    simp only [List.map_map, List.filterMap_map]
    rfl
  rw [hmodel,
    filterMap_ite_eq_map_filter routes
      (fun r => ok (applyParamValues r pv))
      (fun r => sanitizeCollect (applyParamValues r pv) ++ ".html"),
    collectReports_eq_filter, List.map_map, List.filter_map, List.map_map,
    List.filter_map]
  rw [List.filter_congr (fun x hx => ?_)]
  · rfl
  · simp only [Function.comp_apply]
    by_cases hok : ok (applyParamValues x pv) = true
    · have hmem : (sanitizeCollect (applyParamValues x pv) ++ ".html") ∈
          ((routes.filter fun r => ok (applyParamValues r pv)).map
            (fun r => sanitizeCollect (applyParamValues r pv) ++ ".html")) :=
        List.mem_map.mpr ⟨x, List.mem_filter.mpr ⟨hx, hok⟩, rfl⟩
      simpa [hok] using hmem
    · have hnotmem : (sanitizeCollect (applyParamValues x pv) ++ ".html") ∉
          ((routes.filter fun r => ok (applyParamValues r pv)).map
            (fun r => sanitizeCollect (applyParamValues r pv) ++ ".html")) := by
        intro hmem
        obtain ⟨y, hy, hny⟩ := List.mem_map.mp hmem
        have hyx : y = x :=
          List.inj_on_of_nodup_map hnd (List.mem_of_mem_filter hy) hx hny
        subst hyx
        exact hok (List.mem_filter.mp hy).2
      simpa [hok] using hnotmem

/-- C2 (witness): 5 routes where the invocation for route 3 (`/c`)
always throws — the batch yields exactly the 4 other `AuditResult`s, in
order. -/
theorem batch_partial_failure_tolerance_witness :
    ((runBatchModel ["/a", "/b", "/c", "/d", "/e"] []
        (fun r => !(r == "/c")) "dir" "http://b").map fun rep => rep.route) =
      ["/a", "/b", "/d", "/e"] ∧
    ((runBatchModel ["/a", "/b", "/c", "/d", "/e"] []
        (fun r => !(r == "/c")) "dir" "http://b").map
          fun rep => rep.route).length = 4 := by
  have h := (batch_partial_failure_tolerance ["/a", "/b", "/c", "/d", "/e"] []
    (fun r => !(r == "/c")) "dir" "http://b" (by decide)).2.1
  rw [h]
  exact ⟨by decide, by decide⟩

end SvelteKitLighthouse
